import Mathlib

/-!
Shallow embedding of the joker-catalog reconciliation scripts
(`find_missing.py`, `missing_jokers_analysis.py`, `final_analysis.py`).

Embedded here: the name canonicalizer `to_camel_case` (special-case
override chain plus the general CamelCase rule), the per-name grouping,
duplicate detection and missing-name computation of
`missing_jokers_analysis.py`, the identifier extraction from the
`make_jokers!(...)` registration construct, the report counts, and the
output-before-failure behaviour of `find_missing.py` when the
registration construct is absent.

Strings are modelled as Lean `String` / `List Char`; Python's
ASCII-range case mapping is modelled by `Char.toUpper` / `Char.toLower`.
-/

/-- The apostrophe character, written via its code point. -/
def apos : Char := Char.ofNat 39

/-- Whitespace as used by Python's `str.split()` with no arguments,
restricted to the ASCII control/space characters: space, TAB, LF, CR,
VT, FF. -/
def pyIsSpace (c : Char) : Bool :=
  c.toNat = 32 || c.toNat = 9 || c.toNat = 10 || c.toNat = 13 ||
    c.toNat = 11 || c.toNat = 12

/-- Accumulator-style embedding of Python `str.split()` (no arguments):
split on runs of whitespace, producing no empty words.  `acc` holds the
characters of the word currently being read, in reverse. -/
def pySplitAux (acc : List Char) : List Char → List (List Char)
  | [] => if acc.isEmpty then [] else [acc.reverse]
  | c :: cs =>
    if pyIsSpace c then
      if acc.isEmpty then pySplitAux [] cs
      else acc.reverse :: pySplitAux [] cs
    else pySplitAux (c :: acc) cs

/-- Python `str.split()` with no arguments. -/
def pySplit (s : List Char) : List (List Char) :=
  pySplitAux [] s

/-- Python `str.capitalize()`: first character uppercased, the rest
lowercased. -/
def pyCapitalize : List Char → List Char
  | [] => []
  | c :: cs => Char.toUpper c :: cs.map Char.toLower

/-- The character-level cleanup of the general rule, from
`name.replace("'", '').replace('!', '').replace('-', ' ')`. -/
def cleanChars (s : List Char) : List Char :=
  ((s.filter (fun c => c ≠ apos)).filter (fun c => c ≠ '!')).map
    (fun c => if c = '-' then ' ' else c)

/-- The general CamelCase rule of `to_camel_case` (the code after the
override chain): clean up, split on whitespace, capitalize each word,
concatenate. -/
def generalRule (s : List Char) : List Char :=
  ((pySplit (cleanChars s)).map pyCapitalize).flatten

/-- The override key `"Driver's License"` (built character by character
because of the embedded apostrophe). -/
def driversLicenseKey : String :=
  String.mk ['D', 'r', 'i', 'v', 'e', 'r', apos, 's', ' ',
             'L', 'i', 'c', 'e', 'n', 's', 'e']

/-- The fixed override chain at the top of `to_camel_case`, transcribed
in source order as an exact-match table. -/
def overrideTable (name : String) : Option String :=
  if name = "Joker" then some "TheJoker"
  else if name = "Oops! All 6s" then some "OopsAll6s"
  else if name = "8 Ball" then some "EightBall"
  else if name = "Mail-In Rebate" then some "MailInRebate"
  else if name = "Riff-Raff" then some "RiffRaff"
  else if name = "Walkie Talkie" then some "WalkieTalkie"
  else if name = "SÃ©ance" then some "Seance"
  else if name = "Sock and Buskin" then some "SockAndBuskin"
  else if name = driversLicenseKey then some "DriverLicense"
  else none

/-- `to_camel_case` from the scripts: the override chain wins; otherwise
the general rule is applied. -/
def to_camel_case (name : String) : String :=
  match overrideTable name with
  | some v => v
  | none => String.mk (generalRule name.data)

/-- The spec's wording of the general rule, written independently of the
code: delete all apostrophes and exclamation marks, replace every hyphen
with a space, split on whitespace into words, uppercase the first
character of each word while lowercasing its remaining characters,
concatenate with no separator. -/
def specCapWord : List Char → List Char
  | [] => []
  | c :: cs => Char.toUpper c :: cs.map Char.toLower

/-- The general rule as the spec describes it (see `specCapWord`). -/
def specGeneralRule (s : List Char) : List Char :=
  ((pySplit ((s.filter (fun c => ¬ (c = apos ∨ c = '!'))).map
      (fun c => if c = '-' then ' ' else c))).map specCapWord).flatten

/-- Rarity section of a document row (`current_section` in
`missing_jokers_analysis.py`; `"Unknown"` before the first header). -/
inductive Rarity where
  | Common
  | Uncommon
  | Rare
  | Legendary
  | Unknown
deriving DecidableEq

/-- One extracted document row: the fields captured by the row pattern of
`missing_jokers_analysis.py` plus its line number and section. -/
structure Entry where
  display_name : String
  line : Nat
  section_ : Rarity
  num : String
  cost : String
  effect : String
  unlock : String
deriving DecidableEq

/-- Distinct elements of a list in first-seen order: the key order of a
Python dict populated by insertion. -/
def firstSeen : List String → List String
  | [] => []
  | n :: ns => n :: (firstSeen ns).filter (fun m => m ≠ n)

/-- `joker_details` of `missing_jokers_analysis.py`: entries grouped by
raw `display_name`, keys in first-seen order, each group holding that
name's occurrences in document order. -/
def joker_details (entries : List Entry) : List (String × List Entry) :=
  (firstSeen (entries.map (fun e => e.display_name))).map
    (fun n => (n, entries.filter (fun e => e.display_name = n)))

/-- `duplicates`: the groups of `joker_details` with more than one
member. -/
def duplicates (entries : List Entry) : List (String × List Entry) :=
  (joker_details entries).filter (fun p => 1 < p.2.length)

/-- Python `str.lower()` on the characters of a string (ASCII case
mapping, like the rest of this embedding). -/
def strLower (s : String) : String :=
  String.mk (s.data.map Char.toLower)

/-- `missing_names`: the distinct display names whose lowercased
canonical identifier is not among the lowercased implemented
identifiers. -/
def missing_names (entries : List Entry) (implemented : List String) :
    List String :=
  (firstSeen (entries.map (fun e => e.display_name))).filter
    (fun n => ¬ strLower (to_camel_case n) ∈ implemented.map strLower)

/-- The four summary counts printed by `missing_jokers_analysis.py`. -/
structure Counts where
  implemented_count : Nat
  canonical_unique_count : Nat
  duplicate_count : Nat
  missing_count : Nat
deriving DecidableEq

/-- The counts as computed: `len(implemented)`, `len(joker_details)`,
`len(duplicates)`, `len(missing_names)`. -/
def countsOf (entries : List Entry) (implemented : List String) : Counts :=
  { implemented_count := implemented.length
    canonical_unique_count := (joker_details entries).length
    duplicate_count := (duplicates entries).length
    missing_count := (missing_names entries implemented).length }

/-- The regex class `[A-Z]`. -/
def isUpperA (c : Char) : Bool :=
  65 ≤ c.toNat && c.toNat ≤ 90

/-- The regex class `[a-zA-Z0-9]`. -/
def isAlnumA (c : Char) : Bool :=
  isUpperA c || (97 ≤ c.toNat && c.toNat ≤ 122) ||
    (48 ≤ c.toNat && c.toNat ≤ 57)

/-- Accumulator-style embedding of
`re.findall(r'([A-Z][a-zA-Z0-9]*)', s)`: leftmost maximal tokens that
start with an uppercase ASCII letter and continue with ASCII
alphanumerics.  `acc` holds the token being read, in reverse. -/
def findIdentsAux (acc : List Char) : List Char → List (List Char)
  | [] => if acc.isEmpty then [] else [acc.reverse]
  | c :: cs =>
    if acc.isEmpty then
      if isUpperA c then findIdentsAux [c] cs else findIdentsAux [] cs
    else
      if isAlnumA c then findIdentsAux (c :: acc) cs
      else acc.reverse :: findIdentsAux [] cs

/-- All `[A-Z][a-zA-Z0-9]*` tokens of a character list. -/
def findIdents (s : List Char) : List (List Char) :=
  findIdentsAux [] s

/-- Does the second list start with the first? -/
def startsWith : List Char → List Char → Bool
  | [], _ => true
  | _ :: _, [] => false
  | p :: ps, c :: cs => p = c && startsWith ps cs

/-- Split a character list at the first occurrence of `pat`, returning
the part before it and the part after it. -/
def splitAtSub (pat : List Char) : List Char → Option (List Char × List Char)
  | [] => if startsWith pat [] then some ([], []) else none
  | c :: cs =>
    if startsWith pat (c :: cs) then some ([], (c :: cs).drop pat.length)
    else
      match splitAtSub pat cs with
      | some (pre, post) => some (c :: pre, post)
      | none => none

/-- Group 1 of `re.search(r'make_jokers!\((.*?)\);', content, re.DOTALL)`:
the text between the first `make_jokers!(` and the first `);` after
it. -/
def registryBody (content : String) : Option (List Char) :=
  match splitAtSub ("make_jokers!(".data) content.data with
  | none => none
  | some (_, rest) =>
    match splitAtSub (");".data) rest with
    | none => none
    | some (body, _) => some body

/-- The fixed exclusion list applied to extracted tokens. -/
def stopList : List String :=
  ["Missing", "jokers", "adding", "to", "reach", "total"]

/-- The `implemented` list of both scripts: `[A-Z][a-zA-Z0-9]*` tokens
of the registration construct's body, minus the stop-list; `none` when
the construct is absent. -/
def implementedFrom (content : String) : Option (List String) :=
  match registryBody content with
  | none => none
  | some body =>
    some (((findIdents body).map (fun w => String.mk w)).filter
      (fun j => ¬ j ∈ stopList))

/-- The lines a run printed before terminating, and whether it ran to
completion (`false` means it died with an uncaught `NameError`). -/
structure RunTrace where
  output : List String
  completed : Bool
deriving DecidableEq

/-- Insertion step of Python `sorted` over strings. -/
def insertSorted (s : String) : List String → List String
  | [] => [s]
  | t :: ts => if s < t ∨ s = t then s :: t :: ts else t :: insertSorted s ts

/-- Python `sorted` over strings (code-point lexicographic). -/
def sortStr (l : List String) : List String :=
  l.foldr insertSorted []

/-- The `'=' * 80` banner. -/
def eqBanner : String :=
  String.mk (List.replicate 80 '=')

/-- The per-name detail block of `find_missing.py` (whose
`joker_details[name]` keeps the last row with that name). -/
def detailLines (entries : List Entry) (n : String) : List String :=
  match (entries.filter (fun e => e.display_name = n)).getLast? with
  | none => []
  | some e =>
    ["Name: " ++ n ++ " (CamelCase: " ++ to_camel_case n ++ ")",
     "  Cost: $" ++ e.cost,
     "  Effect: " ++ e.effect,
     "  Unlock: " ++ e.unlock,
     ""]

/-- The observable run of `find_missing.py`, with the document rows
already extracted into `entries`.  When the registration construct is
absent, `implemented_lower` is never defined: with at least one entry
the loop over `joker_details` raises `NameError` before any print; with
zero entries the first count line is printed and the next print
raises. -/
def findMissingRun (registrySrc : String) (entries : List Entry) :
    RunTrace :=
  match implementedFrom registrySrc with
  | none =>
    if (entries.map (fun e => e.display_name)).isEmpty then
      { output := ["Total in JOKERS.md: 0"], completed := false }
    else
      { output := [], completed := false }
  | some impl =>
    { output :=
        ["Total in JOKERS.md: " ++
           toString (firstSeen (entries.map (fun e => e.display_name))).length,
         "Total implemented: " ++ toString impl.length,
         "Missing: " ++ toString (missing_names entries impl).length,
         "",
         "Missing jokers with details:",
         eqBanner] ++
        ((sortStr (missing_names entries impl)).map
          (detailLines entries)).flatten,
      completed := true }

/-- `Char.ofNat` inverts `toNat` on valid code points. -/
theorem char_toNat_ofNat {n : Nat} (h : n.isValidChar) :
    (Char.ofNat n).toNat = n := by
  rw [Char.ofNat, dif_pos h]
  rfl

/-- `Char.toUpper` fixes every character outside `a`-`z`. -/
theorem toUpper_of_not_lower {c : Char}
    (h : ¬ (97 ≤ c.toNat ∧ c.toNat ≤ 122)) : Char.toUpper c = c := by
  unfold Char.toUpper
  exact if_neg h

/-- On `a`-`z`, `Char.toUpper` subtracts 32 from the code point. -/
theorem toNat_toUpper_of_lower {c : Char}
    (h : 97 ≤ c.toNat ∧ c.toNat ≤ 122) :
    (Char.toUpper c).toNat = c.toNat - 32 := by
  unfold Char.toUpper
  rw [if_pos h]
  exact char_toNat_ofNat (Or.inl (by omega))

/-- `Char.toLower` fixes every character outside `A`-`Z`. -/
theorem toLower_of_not_upper {c : Char}
    (h : ¬ (65 ≤ c.toNat ∧ c.toNat ≤ 90)) : Char.toLower c = c := by
  unfold Char.toLower
  exact if_neg h

/-- On `A`-`Z`, `Char.toLower` adds 32 to the code point. -/
theorem toNat_toLower_of_upper {c : Char}
    (h : 65 ≤ c.toNat ∧ c.toNat ≤ 90) :
    (Char.toLower c).toNat = c.toNat + 32 := by
  unfold Char.toLower
  rw [if_pos h]
  exact char_toNat_ofNat (Or.inl (by omega))

/-- Characters are determined by their code points. -/
theorem char_eq_iff_toNat {a b : Char} : a = b ↔ a.toNat = b.toNat :=
  ⟨fun h => congrArg Char.toNat h, fun h => Char.ext (UInt32.ext h)⟩

/-- The characters the general rule is claimed to exclude, as a single
predicate: whitespace, apostrophe, exclamation mark, hyphen. -/
def excludedChar (c : Char) : Prop :=
  pyIsSpace c = true ∨ c = apos ∨ c = '!' ∨ c = '-'

/-- `excludedChar` only holds below code point 46. -/
theorem excludedChar_toNat {c : Char} (h : excludedChar c) : c.toNat ≤ 45 := by
  rcases h with h | h | h | h
  · simp [pyIsSpace] at h
    omega
  · rw [char_eq_iff_toNat] at h
    simp [apos, char_toNat_ofNat (n := 39) (Or.inl (by omega))] at h
    omega
  · rw [char_eq_iff_toNat] at h
    have hb : ('!').toNat = 33 := by decide
    omega
  · rw [char_eq_iff_toNat] at h
    have hb : ('-').toNat = 45 := by decide
    omega

/-- `Char.toUpper` never produces an excluded character from a
non-excluded one. -/
theorem toUpper_not_excluded {c : Char} (h : ¬ excludedChar c) :
    ¬ excludedChar (Char.toUpper c) := by
  by_cases hl : 97 ≤ c.toNat ∧ c.toNat ≤ 122
  · intro hex
    have := excludedChar_toNat hex
    rw [toNat_toUpper_of_lower hl] at this
    omega
  · rw [toUpper_of_not_lower hl]
    exact h

/-- `Char.toLower` never produces an excluded character from a
non-excluded one. -/
theorem toLower_not_excluded {c : Char} (h : ¬ excludedChar c) :
    ¬ excludedChar (Char.toLower c) := by
  by_cases hl : 65 ≤ c.toNat ∧ c.toNat ≤ 90
  · intro hex
    have := excludedChar_toNat hex
    rw [toNat_toLower_of_upper hl] at this
    omega
  · rw [toLower_of_not_upper hl]
    exact h

/-- Characters of the words produced by `pySplitAux` are non-whitespace
and come from the accumulator or the input. -/
theorem pySplitAux_sound :
    ∀ (s acc : List Char), (∀ c ∈ acc, pyIsSpace c = false) →
      ∀ w ∈ pySplitAux acc s, ∀ c ∈ w,
        pyIsSpace c = false ∧ (c ∈ acc ∨ c ∈ s) := by
  intro s
  induction s with
  | nil =>
    intro acc hacc w hw c hc
    by_cases h : acc.isEmpty
    · simp [pySplitAux, h] at hw
    · simp [pySplitAux, h] at hw
      subst hw
      have hm : c ∈ acc := List.mem_reverse.mp hc
      exact ⟨hacc c hm, Or.inl hm⟩
  | cons d ds ih =>
    intro acc hacc w hw c hc
    by_cases hd : pyIsSpace d = true
    · by_cases he : acc.isEmpty
      · simp [pySplitAux, hd, he] at hw
        rcases ih [] (by simp) w hw c hc with ⟨h1, h2⟩
        refine ⟨h1, Or.inr (List.mem_cons_of_mem _ ?_)⟩
        rcases h2 with h2 | h2
        · cases h2
        · exact h2
      · simp [pySplitAux, hd, he] at hw
        rcases hw with rfl | hw
        · have hm : c ∈ acc := List.mem_reverse.mp hc
          exact ⟨hacc c hm, Or.inl hm⟩
        · rcases ih [] (by simp) w hw c hc with ⟨h1, h2⟩
          refine ⟨h1, Or.inr (List.mem_cons_of_mem _ ?_)⟩
          rcases h2 with h2 | h2
          · cases h2
          · exact h2
    · simp [pySplitAux, hd] at hw
      have hacc' : ∀ x ∈ d :: acc, pyIsSpace x = false := by
        intro x hx
        rcases List.mem_cons.mp hx with rfl | hx
        · simpa using hd
        · exact hacc x hx
      rcases ih (d :: acc) hacc' w hw c hc with ⟨h1, h2⟩
      rcases h2 with h2 | h2
      · rcases List.mem_cons.mp h2 with rfl | h2
        · exact ⟨h1, Or.inr (List.mem_cons_self _ _)⟩
        · exact ⟨h1, Or.inl h2⟩
      · exact ⟨h1, Or.inr (List.mem_cons_of_mem _ h2)⟩

/-- A non-whitespace character of the cleaned-up name is not an
excluded character. -/
theorem cleanChars_not_excluded {s : List Char} {c : Char}
    (hc : c ∈ cleanChars s) (hsp : pyIsSpace c = false) :
    ¬ excludedChar c := by
  unfold cleanChars at hc
  rcases List.mem_map.mp hc with ⟨d, hd, hdc⟩
  rcases List.mem_filter.mp hd with ⟨hd', hne2⟩
  rcases List.mem_filter.mp hd' with ⟨-, hne1⟩
  by_cases h : d = '-'
  · rw [h] at hdc
    simp at hdc
    rw [← hdc] at hsp
    simp [pyIsSpace] at hsp
  · rw [if_neg h] at hdc
    subst hdc
    intro hex
    rcases hex with hex | hex | hex | hex
    · rw [hsp] at hex
      cases hex
    · simp [hex] at hne1
    · simp [hex] at hne2
    · exact h hex

/-- Every character of a word of `pyCapitalize` is the upper- or
lower-cased form of a character of the word. -/
theorem pyCapitalize_mem {w : List Char} {c : Char}
    (hc : c ∈ pyCapitalize w) :
    ∃ d ∈ w, c = Char.toUpper d ∨ c = Char.toLower d := by
  match w with
  | [] => cases hc
  | d :: ds =>
    rcases List.mem_cons.mp hc with rfl | hc
    · exact ⟨d, List.mem_cons_self _ _, Or.inl rfl⟩
    · rcases List.mem_map.mp hc with ⟨e, he, rfl⟩
      exact ⟨e, List.mem_cons_of_mem _ he, Or.inr rfl⟩

/-- No character of the output of the general rule is an excluded
character. -/
theorem generalRule_not_excluded {s : List Char} {c : Char}
    (hc : c ∈ generalRule s) : ¬ excludedChar c := by
  unfold generalRule at hc
  rcases List.mem_flatten.mp hc with ⟨ww, hww, hcw⟩
  rcases List.mem_map.mp hww with ⟨w, hw, rfl⟩
  rcases pyCapitalize_mem hcw with ⟨d, hdw, hcd⟩
  have hd := pySplitAux_sound (cleanChars s) [] (by simp) w hw d hdw
  have hdc : ¬ excludedChar d := by
    rcases hd with ⟨hsp, hmem | hmem⟩
    · cases hmem
    · exact cleanChars_not_excluded hmem hsp
  rcases hcd with rfl | rfl
  · exact toUpper_not_excluded hdc
  · exact toLower_not_excluded hdc

/-- Membership in `firstSeen` is membership in the underlying list. -/
theorem mem_firstSeen {x : String} :
    ∀ {l : List String}, x ∈ firstSeen l ↔ x ∈ l := by
  intro l
  induction l with
  | nil => simp [firstSeen]
  | cons n ns ih =>
    simp only [firstSeen, List.mem_cons, List.mem_filter]
    by_cases h : x = n
    · simp [h]
    · simp [h, ih]

/-- `firstSeen` has no duplicates. -/
theorem nodup_firstSeen : ∀ l : List String, (firstSeen l).Nodup := by
  intro l
  induction l with
  | nil => exact List.nodup_nil
  | cons n ns ih =>
    refine List.Nodup.cons ?_ (ih.filter _)
    intro hmem
    rcases List.mem_filter.mp hmem with ⟨-, hne⟩
    simp at hne

/-- Unfolding membership in `missing_names`. -/
theorem mem_missing_iff {entries : List Entry} {impl : List String}
    {n : String} :
    n ∈ missing_names entries impl ↔
      n ∈ firstSeen (entries.map (fun e => e.display_name)) ∧
        ¬ strLower (to_camel_case n) ∈ impl.map strLower := by
  simp [missing_names, List.mem_filter]

/-- Unfolding membership in `joker_details`. -/
theorem mem_joker_details {entries : List Entry} {n : String}
    {g : List Entry} :
    (n, g) ∈ joker_details entries ↔
      n ∈ firstSeen (entries.map (fun e => e.display_name)) ∧
        g = entries.filter (fun e => e.display_name = n) := by
  simp only [joker_details, List.mem_map, Prod.mk.injEq]
  constructor
  · rintro ⟨m, hm, rfl, rfl⟩
    exact ⟨hm, rfl⟩
  · rintro ⟨hm, rfl⟩
    exact ⟨n, hm, rfl, rfl⟩

/-- Unfolding membership in `duplicates`. -/
theorem mem_duplicates {entries : List Entry} {n : String}
    {g : List Entry} :
    (n, g) ∈ duplicates entries ↔
      n ∈ firstSeen (entries.map (fun e => e.display_name)) ∧
        g = entries.filter (fun e => e.display_name = n) ∧
        1 < g.length := by
  simp only [duplicates, List.mem_filter, mem_joker_details,
    decide_eq_true_eq]
  constructor
  · rintro ⟨⟨hm, rfl⟩, hl⟩
    exact ⟨hm, rfl, hl⟩
  · rintro ⟨hm, rfl, hl⟩
    exact ⟨⟨hm, rfl⟩, hl⟩

/-- A list containing two different elements has length at least two. -/
theorem two_le_length_of_mem {l : List String} {a b : String}
    (ha : a ∈ l) (hb : b ∈ l) (hab : a ≠ b) : 2 ≤ l.length := by
  match l with
  | [] => cases ha
  | [x] =>
    simp at ha hb
    exact absurd (ha.trans hb.symm) hab
  | x :: y :: rest =>
    simp [List.length_cons]

/-- Shape of a valid extracted token: uppercase ASCII head, ASCII
alphanumeric characters throughout. -/
def goodTok (w : List Char) : Prop :=
  ∃ c cs, w = c :: cs ∧ isUpperA c = true ∧ ∀ d ∈ w, isAlnumA d = true

/-- Uppercase ASCII letters are ASCII alphanumerics. -/
theorem isAlnumA_of_isUpperA {c : Char} (h : isUpperA c = true) :
    isAlnumA c = true := by
  simp [isAlnumA, h]

/-- Every token produced by `findIdentsAux` from a well-formed
accumulator is a valid identifier token. -/
theorem findIdentsAux_sound :
    ∀ (s acc : List Char), (acc = [] ∨ goodTok acc.reverse) →
      ∀ w ∈ findIdentsAux acc s, goodTok w := by
  intro s
  induction s with
  | nil =>
    intro acc hacc w hw
    by_cases h : acc.isEmpty
    · simp [findIdentsAux, h] at hw
    · simp [findIdentsAux, h] at hw
      subst hw
      rcases hacc with rfl | hacc
      · simp at h
      · exact hacc
  | cons d ds ih =>
    intro acc hacc w hw
    by_cases he : acc.isEmpty
    · have hae : acc = [] := List.isEmpty_iff.mp he
      subst hae
      by_cases hu : isUpperA d = true
      · simp only [findIdentsAux, List.isEmpty_nil, if_pos, if_true,
          hu] at hw
        refine ih [d] (Or.inr ?_) w hw
        refine ⟨d, [], rfl, hu, ?_⟩
        intro x hx
        rcases List.mem_cons.mp hx with rfl | hx
        · exact isAlnumA_of_isUpperA hu
        · cases hx
      · simp only [findIdentsAux, List.isEmpty_nil, if_true,
          if_neg hu] at hw
        exact ih [] (Or.inl rfl) w hw
    · have hg : goodTok acc.reverse := by
        refine hacc.resolve_left ?_
        intro h
        rw [h] at he
        simp at he
      by_cases ha : isAlnumA d = true
      · simp only [findIdentsAux, if_neg he, if_pos ha] at hw
        refine ih (d :: acc) (Or.inr ?_) w hw
        rcases hg with ⟨c, cs, hrev, hup, hall⟩
        refine ⟨c, cs ++ [d], ?_, hup, ?_⟩
        · rw [List.reverse_cons, hrev]
          rfl
        · intro x hx
          rw [List.reverse_cons, hrev] at hx
          rcases List.mem_append.mp hx with hx | hx
          · exact hall x (by rw [hrev]; exact hx)
          · rcases List.mem_singleton.mp hx with rfl
            exact ha
      · simp only [findIdentsAux, if_neg he, if_neg ha,
          List.mem_cons] at hw
        rcases hw with rfl | hw
        · exact hg
        · exact ih [] (Or.inl rfl) w hw

/-- Claim C1: for every key of the fixed override table, `to_camel_case`
returns the table's mapped identifier — and for `"Joker"` and
`"8 Ball"` this differs from what the general rule alone would produce,
showing the override short-circuits the general rule. -/
theorem override_precedence :
    to_camel_case "Joker" = "TheJoker" ∧
    to_camel_case "Oops! All 6s" = "OopsAll6s" ∧
    to_camel_case "8 Ball" = "EightBall" ∧
    to_camel_case "Mail-In Rebate" = "MailInRebate" ∧
    to_camel_case "Riff-Raff" = "RiffRaff" ∧
    to_camel_case "Walkie Talkie" = "WalkieTalkie" ∧
    to_camel_case "SÃ©ance" = "Seance" ∧
    to_camel_case "Sock and Buskin" = "SockAndBuskin" ∧
    to_camel_case driversLicenseKey = "DriverLicense" ∧
    String.mk (generalRule ("Joker").data) = "Joker" ∧
    String.mk (generalRule ("8 Ball").data) = "8Ball" := by
  decide

/-- Claim C2: on every display name matching no override key,
`to_camel_case` computes exactly the spec's general rule: delete
apostrophes and exclamation marks, replace hyphens with spaces, split
on whitespace, capitalize each word, concatenate. -/
theorem general_rule_matches_spec
    (name : String) (hov : overrideTable name = none) :
    to_camel_case name = String.mk (specGeneralRule name.data) := by
  unfold to_camel_case
  rw [hov]
  unfold generalRule specGeneralRule
  have hcap : pyCapitalize = specCapWord := by
    funext w
    cases w <;> rfl
  rw [hcap]
  have hclean : cleanChars name.data =
      (name.data.filter (fun c => ¬ (c = apos ∨ c = '!'))).map
        (fun c => if c = '-' then ' ' else c) := by
    unfold cleanChars
    rw [List.filter_filter]
    congr 1
    apply List.filter_congr
    intro a _
    by_cases h1 : a = apos <;> by_cases h2 : a = '!' <;> simp [h1, h2]
  rw [hclean]

/-- Witness for C2 at the non-override name `"Green Joker"`. -/
theorem general_rule_matches_spec_witness :
    overrideTable "Green Joker" = none ∧
      to_camel_case "Green Joker" =
        String.mk (specGeneralRule ("Green Joker").data) :=
  ⟨by decide, general_rule_matches_spec "Green Joker" (by decide)⟩

/-- Example row: `"Foo"` under the Common section. -/
def fooC : Entry :=
  { display_name := "Foo", line := 1, section_ := Rarity.Common,
    num := "1", cost := "4", effect := "e1", unlock := "u1" }

/-- Example row: `"Bar"` under the Rare section. -/
def barR : Entry :=
  { display_name := "Bar", line := 2, section_ := Rarity.Rare,
    num := "2", cost := "5", effect := "e2", unlock := "u2" }

/-- Example row: `"Foo"` again, under the Uncommon section. -/
def fooU : Entry :=
  { display_name := "Foo", line := 3, section_ := Rarity.Uncommon,
    num := "3", cost := "6", effect := "e3", unlock := "u3" }

/-- The three-row example sequence of the spec's duplicate-grouping
property. -/
def exEntries : List Entry :=
  [fooC, barR, fooU]

/-- Example row for the end-to-end scenario: `"8 Ball"`. -/
def exBall : Entry :=
  { display_name := "8 Ball", line := 1, section_ := Rarity.Common,
    num := "2", cost := "5", effect := "e", unlock := "Start" }

/-- Claim C3: a distinct display name is in `missing_names` iff the
lowercased canonical identifier is absent from the lowercased
implemented identifiers; hence a name whose canonical identifier
matches an implemented identifier up to letter case is never
missing. -/
theorem missing_iff_not_implemented
    (entries : List Entry) (impl : List String) (n : String)
    (hn : n ∈ firstSeen (entries.map (fun e => e.display_name))) :
    (n ∈ missing_names entries impl ↔
      ¬ strLower (to_camel_case n) ∈ impl.map strLower) ∧
    (∀ j ∈ impl, strLower j = strLower (to_camel_case n) →
      n ∉ missing_names entries impl) := by
  constructor
  · rw [mem_missing_iff]
    simp [hn]
  · intro j hj hjl hmem
    rcases mem_missing_iff.mp hmem with ⟨-, habs⟩
    exact habs (List.mem_map.mpr ⟨j, hj, hjl⟩)

/-- Witness for C3: `"8 Ball"` canonicalizes to `EightBall`, whose
lowercase form matches implemented `"eightball"`, so it is not
missing. -/
theorem missing_iff_not_implemented_witness :
    ("8 Ball" ∈ firstSeen ([exBall].map (fun e => e.display_name))) ∧
    (("8 Ball" ∈ missing_names [exBall] ["eightball"] ↔
      ¬ strLower (to_camel_case "8 Ball") ∈
        (["eightball"].map strLower)) ∧
     "8 Ball" ∉ missing_names [exBall] ["eightball"]) :=
  ⟨by decide,
   (missing_iff_not_implemented [exBall] ["eightball"] "8 Ball"
      (by decide)).1,
   (missing_iff_not_implemented [exBall] ["eightball"] "8 Ball"
      (by decide)).2 "eightball" (by decide) (by decide)⟩

/-- Claim C4: the duplicate groups are exactly the display names with at
least two occurrences; group keys keep first-seen order, each group is
the document-order occurrence list, every group has length ≥ 2; on the
spec's three-row example the unique group is `"Foo"` with the Common
and Uncommon rows, and the distinct-name count is 2. -/
theorem duplicate_groups_spec :
    (∀ entries : List Entry, (joker_details entries).map Prod.fst =
      firstSeen (entries.map (fun e => e.display_name))) ∧
    (∀ (entries : List Entry) (n : String) (g : List Entry),
      (n, g) ∈ duplicates entries →
        g = entries.filter (fun e => e.display_name = n) ∧
          2 ≤ g.length) ∧
    (∀ (entries : List Entry) (n : String),
      (∃ g, (n, g) ∈ duplicates entries) ↔
        2 ≤ (entries.filter (fun e => e.display_name = n)).length) ∧
    duplicates exEntries = [("Foo", [fooC, fooU])] ∧
    (countsOf exEntries []).canonical_unique_count = 2 := by
  refine ⟨?_, ?_, ?_, by decide, by decide⟩
  · intro entries
    unfold joker_details
    rw [List.map_map]
    exact List.map_id _
  · intro entries n g h
    rcases mem_duplicates.mp h with ⟨-, rfl, hl⟩
    exact ⟨rfl, hl⟩
  · intro entries n
    constructor
    · rintro ⟨g, hg⟩
      rcases mem_duplicates.mp hg with ⟨-, rfl, hl⟩
      exact hl
    · intro hl
      refine ⟨entries.filter (fun e => e.display_name = n),
        mem_duplicates.mpr ⟨?_, rfl, hl⟩⟩
      have hne : entries.filter (fun e => e.display_name = n) ≠ [] := by
        intro h
        rw [h] at hl
        simp at hl
      rcases List.exists_mem_of_ne_nil _ hne with ⟨e, he⟩
      rcases List.mem_filter.mp he with ⟨hee, hname⟩
      rw [mem_firstSeen]
      refine List.mem_map.mpr ⟨e, hee, ?_⟩
      simpa using hname

/-- Witness for C4's quantified parts at the example group. -/
theorem duplicate_groups_spec_witness :
    (("Foo", [fooC, fooU]) ∈ duplicates exEntries) ∧
    ([fooC, fooU] = exEntries.filter (fun e => e.display_name = "Foo") ∧
      2 ≤ ([fooC, fooU] : List Entry).length) :=
  ⟨by decide,
   duplicate_groups_spec.2.1 exEntries "Foo" [fooC, fooU] (by decide)⟩

/-- Claim C5: every distinct display name falls into exactly one of the
four cases (fully matched, missing only, duplicate only, both);
missingness is decided per distinct name by the canonical-identifier
test alone, independent of duplication, and both report parts only
mention distinct names. -/
theorem partition_completeness
    (entries : List Entry) (impl : List String) (n : String)
    (hn : n ∈ firstSeen (entries.map (fun e => e.display_name))) :
    ((n ∉ missing_names entries impl ∧
        n ∉ (duplicates entries).map Prod.fst) ∨
     (n ∈ missing_names entries impl ∧
        n ∉ (duplicates entries).map Prod.fst) ∨
     (n ∉ missing_names entries impl ∧
        n ∈ (duplicates entries).map Prod.fst) ∨
     (n ∈ missing_names entries impl ∧
        n ∈ (duplicates entries).map Prod.fst)) ∧
    (n ∈ missing_names entries impl ↔
      ¬ strLower (to_camel_case n) ∈ impl.map strLower) ∧
    (∀ m ∈ missing_names entries impl,
      m ∈ firstSeen (entries.map (fun e => e.display_name))) ∧
    (∀ m ∈ (duplicates entries).map Prod.fst,
      m ∈ firstSeen (entries.map (fun e => e.display_name))) := by
  refine ⟨by tauto, ?_, ?_, ?_⟩
  · rw [mem_missing_iff]
    simp [hn]
  · intro m hm
    exact (mem_missing_iff.mp hm).1
  · intro m hm
    rcases List.mem_map.mp hm with ⟨⟨k, g⟩, hkg, rfl⟩
    exact (mem_duplicates.mp hkg).1

/-- Witness for C5 on the example rows: `"Foo"` is duplicated and not
missing (its canonical identifier is implemented). -/
theorem partition_completeness_witness :
    ("Foo" ∈ firstSeen (exEntries.map (fun e => e.display_name))) ∧
    ("Foo" ∈ missing_names exEntries ["foo"] ↔
      ¬ strLower (to_camel_case "Foo") ∈ (["foo"].map strLower)) :=
  ⟨by decide,
   (partition_completeness exEntries ["foo"] "Foo" (by decide)).2.1⟩

/-- `firstSeen` spans the same finite set as the underlying list. -/
theorem firstSeen_toFinset (l : List String) :
    (firstSeen l).toFinset = l.toFinset := by
  ext x
  simp [List.mem_toFinset, mem_firstSeen]

/-- Claim C6 (amended): `canonical_unique_count`, `duplicate_count` and
`missing_count` are the distinct-display-name cardinality, the number
of duplicate groups, and the missing-set cardinality; but
`implemented_count` is the length of the extracted identifier list
(with multiplicity), equal to the implemented-set cardinality only when
the extracted tokens are distinct. -/
theorem counts_spec_amended (entries : List Entry) (impl : List String) :
    (countsOf entries impl).implemented_count = impl.length ∧
    (impl.Nodup →
      (countsOf entries impl).implemented_count = impl.toFinset.card) ∧
    (countsOf entries impl).canonical_unique_count =
      (entries.map (fun e => e.display_name)).toFinset.card ∧
    (countsOf entries impl).duplicate_count =
      (duplicates entries).length ∧
    (countsOf entries impl).missing_count =
      (missing_names entries impl).toFinset.card := by
  refine ⟨rfl, ?_, ?_, rfl, ?_⟩
  · intro h
    exact (List.toFinset_card_of_nodup h).symm
  · show (joker_details entries).length = _
    rw [joker_details, List.length_map,
      ← firstSeen_toFinset (entries.map (fun e => e.display_name)),
      List.toFinset_card_of_nodup (nodup_firstSeen _)]
  · show (missing_names entries impl).length = _
    rw [List.toFinset_card_of_nodup]
    exact (nodup_firstSeen _).filter _

/-- Witness for C6's amended statement on the example rows. -/
theorem counts_spec_amended_witness :
    ((["thejoker"] : List String).Nodup ∧
      (countsOf exEntries ["thejoker"]).implemented_count =
        (["thejoker"] : List String).toFinset.card) ∧
    (countsOf exEntries ["thejoker"]).canonical_unique_count =
      (exEntries.map (fun e => e.display_name)).toFinset.card :=
  ⟨⟨by decide,
    (counts_spec_amended exEntries ["thejoker"]).2.1 (by decide)⟩,
   (counts_spec_amended exEntries ["thejoker"]).2.2.1⟩

/-- Counterexample for C6 as stated: a registration body repeating one
identifier makes `implemented_count` 2 while the implemented-identifier
set has cardinality 1. -/
theorem implemented_count_cex :
    implementedFrom "make_jokers!(A A);" = some ["A", "A"] ∧
    (countsOf [] ["A", "A"]).implemented_count = 2 ∧
    ((["A", "A"] : List String).toFinset).card = 1 := by
  refine ⟨by decide, rfl, by decide⟩

/-- Counterexample for C7 as stated: `"a.b"` matches no override key,
yet the general rule's output `"A.b"` contains the punctuation
character `'.'`. -/
theorem general_rule_punct_cex :
    overrideTable "a.b" = none ∧
    to_camel_case "a.b" = "A.b" ∧
    '.' ∈ (to_camel_case "a.b").data := by
  refine ⟨by decide, by decide, by decide⟩

/-- Claim C7 (amended): for non-override names the output is the
concatenation of one capitalized token per word, word length is
preserved by capitalization, digits are fixed by the case maps, and no
output character is whitespace, an apostrophe, an exclamation mark or a
hyphen — but punctuation other than these survives. -/
theorem general_rule_output_chars
    (name : String) (hov : overrideTable name = none) :
    (to_camel_case name).data =
      ((pySplit (cleanChars name.data)).map pyCapitalize).flatten ∧
    (∀ w : List Char, (pyCapitalize w).length = w.length) ∧
    (∀ c : Char, 48 ≤ c.toNat → c.toNat ≤ 57 →
      Char.toUpper c = c ∧ Char.toLower c = c) ∧
    (∀ c ∈ (to_camel_case name).data, ¬ excludedChar c) := by
  have hout : (to_camel_case name).data = generalRule name.data := by
    unfold to_camel_case
    rw [hov]
  refine ⟨hout, ?_, ?_, ?_⟩
  · intro w
    cases w <;> simp [pyCapitalize]
  · intro c h1 h2
    constructor
    · exact toUpper_of_not_lower (by omega)
    · exact toLower_of_not_upper (by omega)
  · intro c hc
    rw [hout] at hc
    exact generalRule_not_excluded hc

/-- Witness for C7's amended statement: the first output character of
`"Green Joker"` is clean. -/
theorem general_rule_output_chars_witness :
    overrideTable "Green Joker" = none ∧
    'G' ∈ (to_camel_case "Green Joker").data ∧
    ¬ excludedChar 'G' :=
  ⟨by decide, by decide,
   (general_rule_output_chars "Green Joker" (by decide)).2.2.2 'G'
     (by decide)⟩

/-- Claim C8: every extracted implemented identifier starts with an
uppercase ASCII letter and contains only ASCII alphanumerics, and no
stop-list word (in either the casing of the code's list or the
lowercase casings of the spec) survives extraction. -/
theorem extracted_idents_shape
    (content : String) (impl : List String)
    (h : implementedFrom content = some impl) :
    ∀ t ∈ impl,
      goodTok t.data ∧
      t ∉ (["missing", "Missing", "jokers", "adding", "to", "reach",
            "total"] : List String) := by
  intro t ht
  unfold implementedFrom at h
  rcases hb : registryBody content with - | body
  · rw [hb] at h
    cases h
  · rw [hb] at h
    rcases Option.some.injEq _ _ ▸ h with rfl
    rcases List.mem_filter.mp ht with ⟨hmap, hstop⟩
    rcases List.mem_map.mp hmap with ⟨w, hw, rfl⟩
    have hgood : goodTok w := findIdentsAux_sound body [] (Or.inl rfl) w hw
    refine ⟨hgood, ?_⟩
    have hstop' : ¬ (String.mk w) ∈ stopList := by
      simpa using hstop
    simp only [stopList, List.mem_cons, List.mem_singleton] at hstop'
    push_neg at hstop'
    intro hmem
    simp only [List.mem_cons, List.mem_singleton] at hmem
    rcases hgood with ⟨c, cs, hdata, hup, -⟩
    rcases hmem with hm | hm | hm | hm | hm | hm | hm
    · have hw' : w = ("missing").data := congrArg String.data hm
      rw [hw'] at hdata
      rw [show ("missing").data = 'm' :: ("issing").data from rfl] at hdata
      injection hdata with h1 h2
      rw [← h1] at hup
      exact absurd hup (by decide)
    · exact hstop'.1 hm
    · exact hstop'.2.1 hm
    · exact hstop'.2.2.1 hm
    · exact hstop'.2.2.2.1 hm
    · exact hstop'.2.2.2.2.1 hm
    · rcases hm with hm | hm
      · exact hstop'.2.2.2.2.2.1 hm
      · cases hm

/-- Witness for C8 on a small registration body containing stop-list
words. -/
theorem extracted_idents_shape_witness :
    implementedFrom "make_jokers!(Missing to Alpha Beta2);" =
      some ["Alpha", "Beta2"] ∧
    "Alpha" ∉ (["missing", "Missing", "jokers", "adding", "to", "reach",
                "total"] : List String) :=
  ⟨by decide,
   (extracted_idents_shape "make_jokers!(Missing to Alpha Beta2);"
      ["Alpha", "Beta2"] (by decide) "Alpha" (by decide)).2⟩

/-- Claim C9 (amended): without a recognizable registration construct
the run never completes a report; when at least one entry was extracted
it prints nothing before dying, but with zero entries one count line is
printed first. -/
theorem no_registry_fatal
    (registrySrc : String) (entries : List Entry)
    (h : implementedFrom registrySrc = none) :
    (findMissingRun registrySrc entries).completed = false ∧
    (entries ≠ [] → (findMissingRun registrySrc entries).output = []) := by
  unfold findMissingRun
  rw [h]
  by_cases he : (entries.map (fun e => e.display_name)).isEmpty
  · have : entries = [] := by
      rcases entries with - | ⟨e, es⟩
      · rfl
      · simp at he
    subst this
    simp
  · simp [he]

/-- Witness for C9's amended statement: with one extracted entry and no
registration construct, nothing is printed before the failure. -/
theorem no_registry_fatal_witness :
    implementedFrom "no call here" = none ∧
    ([exBall] : List Entry) ≠ [] ∧
    (findMissingRun "no call here" [exBall]).completed = false ∧
    (findMissingRun "no call here" [exBall]).output = [] :=
  ⟨by decide, by decide,
   (no_registry_fatal "no call here" [exBall] (by decide)).1,
   (no_registry_fatal "no call here" [exBall] (by decide)).2
     (by decide)⟩

/-- Counterexample for C9 as stated: with no registration construct and
zero extracted entries, the run still prints the first count line
before failing, so it does produce partial report output. -/
theorem no_registry_partial_output_cex :
    implementedFrom "" = none ∧
    (findMissingRun "" []).completed = false ∧
    (findMissingRun "" []).output = ["Total in JOKERS.md: 0"] := by
  refine ⟨by decide, by decide, by decide⟩

/-- Example row whose name `"Hack"` already lacks punctuation. -/
def hackPlain : Entry :=
  { display_name := "Hack", line := 1, section_ := Rarity.Uncommon,
    num := "1", cost := "6", effect := "e1", unlock := "u1" }

/-- Example row whose name `"Hack!"` canonicalizes to the same
identifier as `"Hack"`. -/
def hackBang : Entry :=
  { display_name := "Hack!", line := 2, section_ := Rarity.Uncommon,
    num := "2", cost := "6", effect := "e2", unlock := "u2" }

/-- Claim C10: grouping and distinct-name counting are keyed on the raw
display name, not the canonical identifier: groups only ever contain
entries carrying exactly their key name, two raw-distinct names with
equal canonical identifiers are never in a common duplicate group, both
are counted in `canonical_unique_count`, and each one's missing test is
the canonical-identifier test applied to it alone. -/
theorem grouping_keyed_on_raw_name
    (entries : List Entry) (impl : List String) (n1 n2 : String)
    (hne : n1 ≠ n2) (_hcamel : to_camel_case n1 = to_camel_case n2)
    (h1 : n1 ∈ entries.map (fun e => e.display_name))
    (h2 : n2 ∈ entries.map (fun e => e.display_name)) :
    (∀ (k : String) (g : List Entry), (k, g) ∈ joker_details entries →
      ∀ e ∈ g, e.display_name = k) ∧
    (∀ (g1 g2 : List Entry), (n1, g1) ∈ duplicates entries →
      (n2, g2) ∈ duplicates entries → ∀ e ∈ g1, e ∉ g2) ∧
    2 ≤ (countsOf entries impl).canonical_unique_count ∧
    (n1 ∈ missing_names entries impl ↔
      ¬ strLower (to_camel_case n1) ∈ impl.map strLower) ∧
    (n2 ∈ missing_names entries impl ↔
      ¬ strLower (to_camel_case n2) ∈ impl.map strLower) := by
  have hkey : ∀ (k : String) (g : List Entry),
      (k, g) ∈ joker_details entries → ∀ e ∈ g, e.display_name = k := by
    intro k g hkg e he
    rcases mem_joker_details.mp hkg with ⟨-, rfl⟩
    have := (List.mem_filter.mp he).2
    simpa using this
  refine ⟨hkey, ?_, ?_, ?_, ?_⟩
  · intro g1 g2 hg1 hg2 e he1 he2
    have e1 : e.display_name = n1 := by
      refine hkey n1 g1 ?_ e he1
      rcases mem_duplicates.mp hg1 with ⟨hm, hg, -⟩
      exact mem_joker_details.mpr ⟨hm, hg⟩
    have e2 : e.display_name = n2 := by
      refine hkey n2 g2 ?_ e he2
      rcases mem_duplicates.mp hg2 with ⟨hm, hg, -⟩
      exact mem_joker_details.mpr ⟨hm, hg⟩
    exact hne (e1 ▸ e2)
  · show 2 ≤ (joker_details entries).length
    rw [joker_details, List.length_map]
    exact two_le_length_of_mem (mem_firstSeen.mpr h1)
      (mem_firstSeen.mpr h2) hne
  · rw [mem_missing_iff]
    simp [mem_firstSeen.mpr h1]
  · rw [mem_missing_iff]
    simp [mem_firstSeen.mpr h2]

/-- Witness for C10: `"Hack"` and `"Hack!"` share the canonical
identifier `Hack` yet are counted as two distinct names, and each has
its own missing test. -/
theorem grouping_keyed_on_raw_name_witness :
    ("Hack" : String) ≠ "Hack!" ∧
    to_camel_case "Hack" = to_camel_case "Hack!" ∧
    2 ≤ (countsOf [hackPlain, hackBang] ["hack"]).canonical_unique_count ∧
    ("Hack" ∈ missing_names [hackPlain, hackBang] ["hack"] ↔
      ¬ strLower (to_camel_case "Hack") ∈ (["hack"].map strLower)) :=
  ⟨by decide, by decide,
   (grouping_keyed_on_raw_name [hackPlain, hackBang] ["hack"]
      "Hack" "Hack!" (by decide) (by decide) (by decide)
      (by decide)).2.2.1,
   (grouping_keyed_on_raw_name [hackPlain, hackBang] ["hack"]
      "Hack" "Hack!" (by decide) (by decide) (by decide)
      (by decide)).2.2.2.1⟩
